import Mathlib

/-!
Verification of the batch-processing core of the linguist_toolkit repository.

Python strings are modelled as `List Char` (Unicode scalar values, which is
what Python `str` holds).  Pure helper functions of the scripts are
translated directly; the external collaborators (yt_dlp / pytube / TikTokApi
fetches, pytesseract OCR, `unicodedata.normalize`, the Unicode alnum table
behind `re`'s `\w`) are taken as explicit function parameters, so every
theorem states exactly which facts about the collaborator it uses.
-/

/-- Python's `\s` for `str` patterns (and `str.strip()` with no argument):
the exact finite set of code points CPython classifies as whitespace. -/
def isPySpace (c : Char) : Bool :=
  let n := c.toNat
  decide ((0x9 ≤ n ∧ n ≤ 0xD) ∨ (0x1C ≤ n ∧ n ≤ 0x1F) ∨ n = 0x20 ∨ n = 0x85 ∨
    n = 0xA0 ∨ n = 0x1680 ∨ (0x2000 ≤ n ∧ n ≤ 0x200A) ∨ n = 0x2028 ∨ n = 0x2029 ∨
    n = 0x202F ∨ n = 0x205F ∨ n = 0x3000)

/-- ASCII alphanumeric; this is the restriction of Python's Unicode
`alnum` table (`str.isalnum`) to the ASCII range. -/
def isAsciiAlnum (c : Char) : Bool :=
  let n := c.toNat
  decide ((0x30 ≤ n ∧ n ≤ 0x39) ∨ (0x41 ≤ n ∧ n ≤ 0x5A) ∨ (0x61 ≤ n ∧ n ≤ 0x7A))

/-- A character kept by `ILLEGAL_CHAR_PATTERN.sub('', ...)`, i.e. one that
matches `[\w\s-]`.  Python's `\w` is `alnum ∨ '_'`; the Unicode alnum table
is the parameter `alnum`. -/
def keepChar (alnum : Char → Bool) (c : Char) : Bool :=
  alnum c || c == '_' || isPySpace c || c == '-'

/-- `SPACE_PATTERN.sub('_', s)`: replace every maximal run of whitespace by a
single underscore.  `inRun` records whether we are inside a whitespace run
whose `'_'` has already been emitted. -/
def collapseAux (inRun : Bool) : List Char → List Char
  | [] => []
  | c :: cs =>
    if isPySpace c then
      (if inRun then [] else ['_']) ++ collapseAux true cs
    else
      c :: collapseAux false cs

/-- `re.compile(r'\s+').sub('_', s)`. -/
def collapseSpaces (s : List Char) : List Char :=
  collapseAux false s

/-- `s.strip(x)` for the single strip character `x`. -/
def stripChar (x : Char) (s : List Char) : List Char :=
  (((s.dropWhile (fun c => c == x)).reverse.dropWhile (fun c => c == x))).reverse

/-- `s.rstrip(x)` for the single strip character `x`. -/
def rstripChar (x : Char) (s : List Char) : List Char :=
  (s.reverse.dropWhile (fun c => c == x)).reverse

/-- `s.strip()` (no argument): strip Python whitespace from both ends. -/
def pyStrip (s : List Char) : List Char :=
  ((s.dropWhile isPySpace).reverse.dropWhile isPySpace).reverse

/-- The UTF-8 encoding of one Unicode scalar value, as `Nat` byte values. -/
def utf8Bytes (c : Char) : List Nat :=
  let n := c.toNat
  if n < 0x80 then [n]
  else if n < 0x800 then [0xC0 + n / 0x40, 0x80 + n % 0x40]
  else if n < 0x10000 then
    [0xE0 + n / 0x1000, 0x80 + (n / 0x40) % 0x40, 0x80 + n % 0x40]
  else
    [0xF0 + n / 0x40000, 0x80 + (n / 0x1000) % 0x40, 0x80 + (n / 0x40) % 0x40,
      0x80 + n % 0x40]

/-- `s.encode('utf-8')` as a byte list. -/
def encodeUtf8 (s : List Char) : List Nat :=
  (s.map utf8Bytes).flatten

/-- Byte length of `s.encode('utf-8')`. -/
def utf8Len (s : List Char) : Nat :=
  (encodeUtf8 s).length

/-- One step of the strict UTF-8 decoder on lead byte `b` with following
bytes `bs`: either the decoded scalar value, or `none` for a byte that
cannot start a valid sequence here (stray continuation byte, overlong or
out-of-range lead, continuation byte missing or out of its RFC 3629
window).  The second component is how many bytes the step consumes; an
invalid byte is skipped on its own, which on every input yields the same
characters as CPython's error handler because continuation bytes can never
begin a sequence. -/
def utf8DecodeStep (b : Nat) (bs : List Nat) : Option Char × Nat :=
  if b < 0x80 then (some (Char.ofNat b), 1)
  else if b < 0xC2 then (none, 1)
  else if b < 0xE0 then
    match bs with
    | b1 :: _ =>
      if 0x80 ≤ b1 ∧ b1 < 0xC0 then
        (some (Char.ofNat ((b - 0xC0) * 0x40 + (b1 - 0x80))), 2)
      else (none, 1)
    | [] => (none, 1)
  else if b < 0xF0 then
    match bs with
    | b1 :: b2 :: _ =>
      if (0x80 ≤ b1 ∧ b1 < 0xC0) ∧ (0x80 ≤ b2 ∧ b2 < 0xC0) ∧
          (b = 0xE0 → 0xA0 ≤ b1) ∧ (b = 0xED → b1 < 0xA0) then
        (some (Char.ofNat ((b - 0xE0) * 0x1000 + (b1 - 0x80) * 0x40 + (b2 - 0x80))), 3)
      else (none, 1)
    | _ => (none, 1)
  else if b < 0xF5 then
    match bs with
    | b1 :: b2 :: b3 :: _ =>
      if (0x80 ≤ b1 ∧ b1 < 0xC0) ∧ (0x80 ≤ b2 ∧ b2 < 0xC0) ∧
          (0x80 ≤ b3 ∧ b3 < 0xC0) ∧ (b = 0xF0 → 0x90 ≤ b1) ∧
          (b = 0xF4 → b1 < 0x90) then
        (some (Char.ofNat ((b - 0xF0) * 0x40000 + (b1 - 0x80) * 0x1000 +
          (b2 - 0x80) * 0x40 + (b3 - 0x80))), 4)
      else (none, 1)
    | _ => (none, 1)
  else (none, 1)

/-- `bytes.decode('utf-8', 'ignore')`: decode valid sequences, skip bytes
of ill-formed ones. -/
def decodeUtf8Ignore : List Nat → List Char
  | [] => []
  | b :: bs =>
    match utf8DecodeStep b bs with
    | (some c, k) => c :: decodeUtf8Ignore (bs.drop (k - 1))
    | (none, k) => decodeUtf8Ignore (bs.drop (k - 1))
termination_by l => l.length
decreasing_by
  all_goals simp_wf
  all_goals omega

/-- The longest prefix of `s` whose UTF-8 encoding fits in `n` bytes.
`decode_take_encode` below proves that this is exactly what
`s.encode('utf-8')[:n].decode('utf-8', 'ignore')` computes. -/
def utf8Trunc (n : Nat) : List Char → List Char
  | [] => []
  | c :: cs =>
    if (utf8Bytes c).length ≤ n then c :: utf8Trunc (n - (utf8Bytes c).length) cs
    else []

/-- The sanitizer pipeline of the YouTube-family scripts before the byte
truncation step: NFKD-normalize, drop characters outside `[\w\s-]`, collapse
whitespace runs to `'_'`, strip leading/trailing `'.'`.  The external
`unicodedata.normalize('NFKD', ...)` is the parameter `nfkd` and the Unicode
alnum table behind `\w` is the parameter `alnum`. -/
def sanitizePre (alnum : Char → Bool) (nfkd : List Char → List Char)
    (title : List Char) : List Char :=
  stripChar '.' (collapseSpaces ((nfkd title).filter (keepChar alnum)))

/-- `sanitize_filename` as it appears—with identical bodies—in
`youtube_downloader.py`, `you2wav.py`, `audio_converter.py` and
`you2text.py`:

    sanitized_title = unicodedata.normalize('NFKD', title)
    sanitized_title = ILLEGAL_CHAR_PATTERN.sub('', sanitized_title)
    sanitized_title = SPACE_PATTERN.sub('_', sanitized_title).strip(".")
    sanitized_title = sanitized_title.encode('utf-8')[:max_length]
                        .decode('utf-8', 'ignore').rstrip('_')
    return unicodedata.normalize('NFC', sanitized_title)

`nfkd`/`nfc` are the two external `unicodedata.normalize` calls and `alnum`
the Unicode alnum table; `maxLength` defaults to 255 at every call site. -/
def sanitize_filename (alnum : Char → Bool) (nfkd nfc : List Char → List Char)
    (title : List Char) (maxLength : Nat) : List Char :=
  nfc (rstripChar '_'
    (decodeUtf8Ignore ((encodeUtf8 (sanitizePre alnum nfkd title)).take maxLength)))

/-- `you2wav.sanitize_filename`, transcribed separately from `you2wav.py`
(lines 51-61); its body is textually identical to the
`youtube_downloader.py` variant. -/
def sanitize_filename_you2wav (alnum : Char → Bool)
    (nfkd nfc : List Char → List Char) (title : List Char)
    (maxLength : Nat) : List Char :=
  nfc (rstripChar '_'
    (decodeUtf8Ignore ((encodeUtf8
      (stripChar '.' (collapseSpaces ((nfkd title).filter (keepChar alnum))))).take
        maxLength)))

/-- `tok2wav.ILLEGAL_CHAR_PATTERN`: `[\\/*?:"<>|]`. -/
def tokIllegal (c : Char) : Bool :=
  c == '\\' || c == '/' || c == '*' || c == '?' || c == ':' || c == '"' ||
    c == '<' || c == '>' || c == '|'

/-- `tok2wav.sanitize_filename`:

    title = unicodedata.normalize('NFD', title).encode('ascii', 'ignore')
              .decode('ascii')
    title = ILLEGAL_CHAR_PATTERN.sub('', title)
    title = SPACE_PATTERN.sub('_', title)
    return title[:max_length].rstrip("_")

`nfd` is the external `unicodedata.normalize('NFD', ...)` call;
`.encode('ascii','ignore').decode('ascii')` drops every non-ASCII
character. -/
def sanitize_filename_tok (nfd : List Char → List Char) (title : List Char)
    (maxLength : Nat) : List Char :=
  rstripChar '_'
    ((collapseSpaces
      (((nfd title).filter (fun c => c.toNat < 0x80)).filter
        (fun c => !(tokIllegal c)))).take maxLength)

/-! ## Source validators -/

/-- ASCII lowercasing; models how `re.IGNORECASE` compares the all-ASCII
literals and the `[a-z]` class of the URL patterns against the input. -/
def asciiLower (c : Char) : Char :=
  if 0x41 ≤ c.toNat ∧ c.toNat ≤ 0x5A then Char.ofNat (c.toNat + 0x20) else c

/-- `[a-z]`. -/
def isLowerAlpha (c : Char) : Bool :=
  decide (0x61 ≤ c.toNat ∧ c.toNat ≤ 0x7A)

/-- ASCII decimal digit; the restriction of Python's `\d` (Unicode `Nd`)
to the ASCII range. -/
def isAsciiDigit (c : Char) : Bool :=
  decide (0x30 ≤ c.toNat ∧ c.toNat ≤ 0x39)

/-- Python `re` `$` with neither `MULTILINE` nor `DOTALL`: the pattern end
matches at the end of the string or just before a single final newline. -/
def reDollar (r : List Char) : Bool :=
  r == [] || r == ['\n']

/-- `YOUTUBE_URL_REGEX` (identical in `youtube_downloader.py`,
`you2wav.py`, `audio_converter.py`, `you2text.py`):

    ^(https?://)?(www\.)?
    (youtube\.com/watch\?v=|youtube\.[a-z]\x7b2,3\x7d/watch\?v=|youtu\.be/)
    [^&\s]+$        (compiled with re.IGNORECASE)

applied with `.match` (anchored at the start).  `IGNORECASE` is modelled by
ASCII-lowercasing the input first, which is exact for the all-ASCII
literals and classes of this pattern.  Each optional group is deterministic
here because no later alternative can consume its literal, and the greedy
`[a-z]\x7b2,3\x7d` needs only the two explicit backtracking cases. -/
def youtubeUrlMatch (url : List Char) : Bool :=
  let u := url.map asciiLower
  let r1 :=
    if ("https://".toList).isPrefixOf u then u.drop 8
    else if ("http://".toList).isPrefixOf u then u.drop 7
    else u
  let r2 := if ("www.".toList).isPrefixOf r1 then r1.drop 4 else r1
  let tail? : Option (List Char) :=
    if ("youtube.com/watch?v=".toList).isPrefixOf r2 then some (r2.drop 20)
    else if ("youtu.be/".toList).isPrefixOf r2 then some (r2.drop 9)
    else if ("youtube.".toList).isPrefixOf r2 then
      let r3 := r2.drop 8
      if (r3.take 3).length = 3 ∧ (r3.take 3).all isLowerAlpha ∧
          ("/watch?v=".toList).isPrefixOf (r3.drop 3) then
        some (r3.drop 12)
      else if (r3.take 2).length = 2 ∧ (r3.take 2).all isLowerAlpha ∧
          ("/watch?v=".toList).isPrefixOf (r3.drop 2) then
        some (r3.drop 11)
      else none
    else none
  match tail? with
  | none => false
  | some t =>
    let core := t.takeWhile (fun c => c != '&' && !(isPySpace c))
    !core.isEmpty && reDollar (t.drop core.length)

/-- `YouTubeDownloader.is_valid_youtube_url`:
`bool(YOUTUBE_URL_REGEX.match(url.strip()))`. -/
def is_valid_youtube_url (url : List Char) : Bool :=
  youtubeUrlMatch (pyStrip url)

/-- `tok2wav.is_valid_tiktok_url`:

    pattern = re.compile(r'https?://(www\.)?tiktok\.com/@[^/]+/video/\d+(\?.*)?$')
    return bool(pattern.match(url))

No `re.IGNORECASE` flag: the pattern literals match case-sensitively.
`[^/]+` can never contain `/`, so it deterministically extends to the
first `/`; `\d+` is greedy and no backtracking can help, and `.` in the
optional query group does not match a newline, so `$` accepts the end of
the string or one final newline.  `\d` is modelled on ASCII digits. -/
def is_valid_tiktok_url (url : List Char) : Bool :=
  let r1? : Option (List Char) :=
    if ("https://".toList).isPrefixOf url then some (url.drop 8)
    else if ("http://".toList).isPrefixOf url then some (url.drop 7)
    else none
  match r1? with
  | none => false
  | some r1 =>
    let r2 := if ("www.".toList).isPrefixOf r1 then r1.drop 4 else r1
    if ("tiktok.com/@".toList).isPrefixOf r2 then
      let r3 := r2.drop 12
      let user := r3.takeWhile (fun c => c != '/')
      let r4 := r3.drop user.length
      if user.isEmpty then false
      else if ("/video/".toList).isPrefixOf r4 then
        let r5 := r4.drop 7
        let digits := r5.takeWhile isAsciiDigit
        let r6 := r5.drop digits.length
        if digits.isEmpty then false
        else
          reDollar r6 ||
            (r6.headD ' ' == '?' && reDollar ((r6.drop 1).dropWhile (fun c => c != '\n')))
      else false
    else false

/-! ## Batch orchestrators

The yt_dlp interaction inside the `try` block (`ydl.extract_info`, the
file-existence checks, message formatting) is an opaque fallible
capability: a function from the URL to either the `(bool, str)` pair the
`try` body returns, or a raised exception.  A Python exception is modelled
by its message together with whether it is a
`yt_dlp.utils.DownloadError`. -/

/-- A raised Python exception, classified the only way the scripts
classify: `isDownloadError` tells whether `except yt_dlp.utils.DownloadError`
would catch it. -/
structure PyExc where
  isDownloadError : Bool
  msg : List Char
deriving DecidableEq

/-- `f"Invalid URL: {video_url}"`. -/
def invalidUrlMsg (url : List Char) : List Char :=
  "Invalid URL: ".toList ++ url

/-- `f"Error downloading {video_url}: {e}"`. -/
def dlErrorMsg (url : List Char) (e : PyExc) : List Char :=
  "Error downloading ".toList ++ url ++ ": ".toList ++ e.msg

/-- `f"Unexpected error: {e}"`. -/
def unexpectedErrorMsg (e : PyExc) : List Char :=
  "Unexpected error: ".toList ++ e.msg

/-- `f"Exception occurred while processing {url}: {e}"`. -/
def processingExcMsg (url : List Char) (e : PyExc) : List Char :=
  "Exception occurred while processing ".toList ++ url ++ ": ".toList ++ e.msg

/-- `YouTubeDownloader.download_video_and_audio` (worker body): rejects an
invalid URL with `(False, ...)`; otherwise runs the capability, catching
`yt_dlp.utils.DownloadError` *and* every other exception (`except
Exception`), converting each to a `(False, message)` result.  The
`Except` result type records whether an exception escapes the worker:
it never does. -/
def download_video_and_audio (cap : List Char → Except PyExc (Bool × List Char))
    (url : List Char) : Except PyExc (Bool × List Char) :=
  if is_valid_youtube_url url then
    match cap url with
    | Except.ok r => Except.ok r
    | Except.error e =>
      if e.isDownloadError then Except.ok (false, dlErrorMsg url e)
      else Except.ok (false, unexpectedErrorMsg e)
  else Except.ok (false, invalidUrlMsg url)

/-- The `as_completed` collection loop body of
`YouTubeDownloader.download_videos_from_file`: `future.result()` re-raises
anything the worker raised, and the surrounding `try` converts that into a
logged `[Failed]` line; a normal result is logged with its own status. -/
def collectFuture (cap : List Char → Except PyExc (Bool × List Char))
    (url : List Char) : Bool × List Char :=
  match download_video_and_audio cap url with
  | Except.ok (s, m) => (s, m)
  | Except.error e => (false, processingExcMsg url e)

/-- The accepted work-item queue of
`YouTubeDownloader.download_videos_from_file`:
`[line.strip() for line in text.splitlines() if is_valid_youtube_url(line.strip())]`. -/
def acceptedUrls (lines : List (List Char)) : List (List Char) :=
  (lines.map pyStrip).filter is_valid_youtube_url

/-- `YouTubeDownloader.download_videos_from_file`, batch phase: the thread
pool completes the submitted futures in some order `completionOrder` (a
permutation of the accepted URLs) and the loop records one status line per
completed future. -/
def download_videos_from_file (cap : List Char → Except PyExc (Bool × List Char))
    (completionOrder : List (List Char)) : List (Bool × List Char) :=
  completionOrder.map (collectFuture cap)

/-- `audio_converter.download_and_process_video` (worker body): rejects an
invalid URL with `(False, ...)`; otherwise runs the capability, but its
`try` block catches **only** `yt_dlp.utils.DownloadError` — any other
exception escapes the function. -/
def audio_download_and_process_video
    (cap : List Char → Except PyExc (Bool × List Char))
    (url : List Char) : Except PyExc (Bool × List Char) :=
  if youtubeUrlMatch url then
    match cap url with
    | Except.ok r => Except.ok r
    | Except.error e =>
      if e.isDownloadError then Except.ok (false, dlErrorMsg url e)
      else Except.error e
  else Except.ok (false, invalidUrlMsg url)

/-- The accepted work-item queue of `audio_converter.download_videos_from_file`:
`[url.strip() for url in urls if is_valid_youtube_url(url.strip())]` where
this file's `is_valid_youtube_url` does not strip again. -/
def audioAcceptedUrls (lines : List (List Char)) : List (List Char) :=
  (lines.map pyStrip).filter youtubeUrlMatch

/-- `audio_converter.download_videos_from_file`, batch phase: a sequential
`for` loop with no `try` around the call, so the first exception that
escapes the worker aborts the whole loop and propagates to the caller. -/
def audio_download_videos_from_file
    (cap : List Char → Except PyExc (Bool × List Char))
    (lines : List (List Char)) : Except PyExc (List (Bool × List Char)) :=
  (audioAcceptedUrls lines).mapM (audio_download_and_process_video cap)

/-- Whether the audio-converter worker reports item `u` as failed (a
`(False, message)` result). -/
def audioItemFailed (cap : List Char → Except PyExc (Bool × List Char))
    (u : List Char) : Bool :=
  match audio_download_and_process_video cap u with
  | Except.ok r => !r.1
  | Except.error _ => false

/-! ## OCR aggregation sink -/

/-- The block `extract_text` appends for one image:
`f"--- \x7bimage_path.name\x7d ---\n\x7btext\x7d\n\n"`. -/
def blockFor (name text : List Char) : List Char :=
  "--- ".toList ++ name ++ " ---\n".toList ++ text ++ "\n\n".toList

/-- Inverse reading of one block: split the first line, strip the
`--- `/` ---` header affixes and the trailing blank separator line. -/
def parseBlock (b : List Char) : Option (List Char × List Char) :=
  let headerLine := b.takeWhile (fun c => c != '\n')
  let body := b.drop (headerLine.length + 1)
  if ("--- ".toList).isPrefixOf headerLine ∧
      (" ---".toList).isSuffixOf headerLine ∧ 8 ≤ headerLine.length ∧
      ("\n\n".toList).isSuffixOf body then
    some ((headerLine.drop 4).take (headerLine.length - 8),
      body.take (body.length - 2))
  else none

/-- `image_to_text.extract_text` acting on the shared output-file content:
on OCR success the block is appended; if preprocessing or OCR raised, the
`except` handler prints and appends nothing (`ocr = none`). -/
def extract_text (content : List Char) (name : List Char)
    (ocr : Option (List Char)) : List Char :=
  match ocr with
  | some text => content ++ blockFor name text
  | none => content

/-- `image_to_text.extract_text_from_images` acting on the output-file
content: `output_file.write_text("")` replaces whatever content `previous`
held with the empty string before any worker is submitted, then each
completed worker appends through `extract_text`; `items` lists the images
in completion order together with their OCR outcome. -/
def extract_text_from_images (previous : List Char)
    (items : List (List Char × Option (List Char))) : List Char :=
  items.foldl (fun content it => extract_text content it.1 it.2) []

/-! ## Concrete instances used by witnesses and counterexamples -/

/-- The exact behavior of the real collaborators on the one-character
title U+037A GREEK YPOGEGRAMMENI: CPython classifies U+037A as
alphanumeric (category Lm), and its NFKD decomposition is U+0020 SPACE
followed by U+0345 COMBINING GREEK YPOGEGRAMMENI (category Mn, not
alphanumeric). -/
def nfkdYpogegrammeni : List Char → List Char := fun s =>
  if s = [Char.ofNat 0x37A] then [' ', Char.ofNat 0x345] else s

/-- The Unicode alnum table restricted to ASCII plus U+037A; exact on
every character the `nfkdYpogegrammeni` pipeline touches. -/
def alnumYpogegrammeni : Char → Bool := fun c =>
  isAsciiAlnum c || c == Char.ofNat 0x37A


/-- A capability whose only configured failure is a `DownloadError` on one
URL; every other accepted URL succeeds. -/
def witnessCapY : List Char → Except PyExc (Bool × List Char) := fun u =>
  if u = "https://youtu.be/a".toList then
    Except.error ⟨true, "HTTP Error 403".toList⟩
  else Except.ok (true, "ok".toList)

/-- A capability that never raises. -/
def witnessCapA : List Char → Except PyExc (Bool × List Char) := fun _ =>
  Except.ok (true, "ok".toList)

/-- An input list with two accepted URLs and one rejected line. -/
def witnessLines : List (List Char) :=
  ["https://youtu.be/a".toList, "nope".toList, " https://youtu.be/b ".toList]

/-- A completion order for `witnessLines`: the second future finishes
first. -/
def witnessOrder : List (List Char) :=
  ["https://youtu.be/b".toList, "https://youtu.be/a".toList]

/-- A capability raising an exception that is not a
`yt_dlp.utils.DownloadError` (e.g. a `KeyError`). -/
def cxCapAudio : List Char → Except PyExc (Bool × List Char) := fun _ =>
  Except.error ⟨false, "KeyError".toList⟩

/-- An input list with exactly one accepted URL. -/
def cxAudioLines : List (List Char) :=
  ["https://youtu.be/abc".toList]
/-! ## Helper lemmas: UTF-8 round trip -/

theorem char_toNat_valid (c : Char) :
    c.toNat < 0xD800 ∨ (0xDFFF < c.toNat ∧ c.toNat < 0x110000) := by
  rcases c.valid with h | ⟨h1, h2⟩
  · exact Or.inl h
  · exact Or.inr ⟨h1, h2⟩

theorem toNat_ofNat_valid (n : Nat) (h : Char.isValidCharNat n) :
    (Char.ofNat n).toNat = n := by
  simp [Char.ofNat, Char.toNat, dif_pos h, Char.ofNatAux, UInt32.toNat, UInt32.ofNat']

theorem utf8Bytes_length_pos (c : Char) : 0 < (utf8Bytes c).length := by
  simp only [utf8Bytes]
  split_ifs <;> simp

theorem encodeUtf8_nil : encodeUtf8 [] = [] := rfl

theorem encodeUtf8_cons (c : Char) (s : List Char) :
    encodeUtf8 (c :: s) = utf8Bytes c ++ encodeUtf8 s := by
  simp [encodeUtf8]

theorem utf8Len_cons (c : Char) (s : List Char) :
    utf8Len (c :: s) = (utf8Bytes c).length + utf8Len s := by
  simp [utf8Len, encodeUtf8_cons]

theorem decodeUtf8Ignore_nil : decodeUtf8Ignore [] = [] := by
  rw [decodeUtf8Ignore]

theorem decodeUtf8Ignore_cons (b : Nat) (bs : List Nat) :
    decodeUtf8Ignore (b :: bs) =
      match utf8DecodeStep b bs with
      | (some c, k) => c :: decodeUtf8Ignore (bs.drop (k - 1))
      | (none, k) => decodeUtf8Ignore (bs.drop (k - 1)) := by
  rw [decodeUtf8Ignore]

/-- Decoding skips a run of continuation-range bytes entirely. -/
theorem decodeUtf8Ignore_conts (l : List Nat) (h : ∀ b ∈ l, 0x80 ≤ b ∧ b < 0xC2) :
    decodeUtf8Ignore l = [] := by
  induction l with
  | nil => exact decodeUtf8Ignore_nil
  | cons b bs ih =>
    have hb := h b (by simp)
    rw [decodeUtf8Ignore_cons, utf8DecodeStep.eq_def]
    rw [if_neg (by omega), if_pos (by omega)]
    simpa using ih (fun x hx => h x (by simp [hx]))

/-- Decoding the encoding of one character followed by anything yields that
character followed by the decoding of the rest. -/
theorem decodeUtf8Ignore_utf8Bytes_append (c : Char) (X : List Nat) :
    decodeUtf8Ignore (utf8Bytes c ++ X) = c :: decodeUtf8Ignore X := by
  have hv := char_toNat_valid c
  by_cases h1 : c.toNat < 0x80
  · simp only [utf8Bytes, if_pos h1, List.cons_append, List.nil_append]
    have hstep : utf8DecodeStep c.toNat X = (some (Char.ofNat c.toNat), 1) := by
      rw [utf8DecodeStep.eq_def, if_pos h1]
    rw [decodeUtf8Ignore_cons, hstep]
    simp [Char.ofNat_toNat]
  · by_cases h2 : c.toNat < 0x800
    · simp only [utf8Bytes, if_neg h1, if_pos h2, List.cons_append, List.nil_append]
      have hstep : utf8DecodeStep (0xC0 + c.toNat / 0x40)
          ((0x80 + c.toNat % 0x40) :: X) = (some c, 2) := by
        rw [utf8DecodeStep.eq_def]
        rw [if_neg (by omega), if_neg (by omega), if_pos (by omega)]
        simp only [if_pos (show 0x80 ≤ 0x80 + c.toNat % 0x40 ∧
          0x80 + c.toNat % 0x40 < 0xC0 by omega)]
        have he : (0xC0 + c.toNat / 0x40 - 0xC0) * 0x40 +
            (0x80 + c.toNat % 0x40 - 0x80) = c.toNat := by omega
        rw [he, Char.ofNat_toNat]
      rw [decodeUtf8Ignore_cons, hstep]
      simp
    · by_cases h3 : c.toNat < 0x10000
      · have hs : c.toNat < 0xD800 ∨ 0xDFFF < c.toNat := by omega
        simp only [utf8Bytes, if_neg h1, if_neg h2, if_pos h3, List.cons_append,
          List.nil_append]
        have hstep : utf8DecodeStep (0xE0 + c.toNat / 0x1000)
            ((0x80 + c.toNat / 0x40 % 0x40) :: (0x80 + c.toNat % 0x40) :: X)
            = (some c, 3) := by
          rw [utf8DecodeStep.eq_def]
          rw [if_neg (by omega), if_neg (by omega), if_neg (by omega), if_pos (by omega)]
          simp only [if_pos (show (0x80 ≤ 0x80 + c.toNat / 0x40 % 0x40 ∧
              0x80 + c.toNat / 0x40 % 0x40 < 0xC0) ∧
              (0x80 ≤ 0x80 + c.toNat % 0x40 ∧ 0x80 + c.toNat % 0x40 < 0xC0) ∧
              (0xE0 + c.toNat / 0x1000 = 0xE0 → 0xA0 ≤ 0x80 + c.toNat / 0x40 % 0x40) ∧
              (0xE0 + c.toNat / 0x1000 = 0xED → 0x80 + c.toNat / 0x40 % 0x40 < 0xA0) by
            refine ⟨by omega, by omega, ?_, ?_⟩ <;> intro hh <;> omega)]
          have he : (0xE0 + c.toNat / 0x1000 - 0xE0) * 0x1000 +
              (0x80 + c.toNat / 0x40 % 0x40 - 0x80) * 0x40 +
              (0x80 + c.toNat % 0x40 - 0x80) = c.toNat := by omega
          rw [he, Char.ofNat_toNat]
        rw [decodeUtf8Ignore_cons, hstep]
        simp
      · have h4 : c.toNat < 0x110000 := by omega
        simp only [utf8Bytes, if_neg h1, if_neg h2, if_neg h3, List.cons_append,
          List.nil_append]
        have hstep : utf8DecodeStep (0xF0 + c.toNat / 0x40000)
            ((0x80 + c.toNat / 0x1000 % 0x40) :: (0x80 + c.toNat / 0x40 % 0x40) ::
              (0x80 + c.toNat % 0x40) :: X) = (some c, 4) := by
          rw [utf8DecodeStep.eq_def]
          rw [if_neg (by omega), if_neg (by omega), if_neg (by omega), if_neg (by omega),
            if_pos (by omega)]
          simp only [if_pos (show (0x80 ≤ 0x80 + c.toNat / 0x1000 % 0x40 ∧
              0x80 + c.toNat / 0x1000 % 0x40 < 0xC0) ∧
              (0x80 ≤ 0x80 + c.toNat / 0x40 % 0x40 ∧ 0x80 + c.toNat / 0x40 % 0x40 < 0xC0) ∧
              (0x80 ≤ 0x80 + c.toNat % 0x40 ∧ 0x80 + c.toNat % 0x40 < 0xC0) ∧
              (0xF0 + c.toNat / 0x40000 = 0xF0 → 0x90 ≤ 0x80 + c.toNat / 0x1000 % 0x40) ∧
              (0xF0 + c.toNat / 0x40000 = 0xF4 → 0x80 + c.toNat / 0x1000 % 0x40 < 0x90) by
            refine ⟨by omega, by omega, by omega, ?_, ?_⟩ <;> intro hh <;> omega)]
          have he : (0xF0 + c.toNat / 0x40000 - 0xF0) * 0x40000 +
              (0x80 + c.toNat / 0x1000 % 0x40 - 0x80) * 0x1000 +
              (0x80 + c.toNat / 0x40 % 0x40 - 0x80) * 0x40 +
              (0x80 + c.toNat % 0x40 - 0x80) = c.toNat := by omega
          rw [he, Char.ofNat_toNat]
        rw [decodeUtf8Ignore_cons, hstep]
        simp

/-- Bytes after the lead in `utf8Bytes c` are continuation-range bytes. -/
theorem utf8Bytes_tail_conts (c : Char) :
    ∀ b ∈ (utf8Bytes c).tail, 0x80 ≤ b ∧ b < 0xC2 := by
  simp only [utf8Bytes]
  split_ifs <;> intro b hb <;> simp_all <;> omega

/-- Decoding a strict prefix of the encoding of one character yields nothing:
a truncated trailing sequence is discarded entirely. -/
theorem decodeUtf8Ignore_take_utf8Bytes (c : Char) (m : Nat)
    (h : m < (utf8Bytes c).length) :
    decodeUtf8Ignore ((utf8Bytes c).take m) = [] := by
  have hv := char_toNat_valid c
  rcases Nat.eq_zero_or_pos m with hm | hm
  · subst hm; simpa using decodeUtf8Ignore_nil
  by_cases h1 : c.toNat < 0x80
  · simp only [utf8Bytes, if_pos h1] at h
    simp at h
    omega
  · by_cases h2 : c.toNat < 0x800
    · simp only [utf8Bytes, if_neg h1, if_pos h2] at h ⊢
      simp at h
      have hm1 : m = 1 := by omega
      subst hm1
      simp only [List.take]
      rw [decodeUtf8Ignore_cons, utf8DecodeStep.eq_def]
      rw [if_neg (by omega), if_neg (by omega), if_pos (by omega)]
      simpa using decodeUtf8Ignore_nil
    · by_cases h3 : c.toNat < 0x10000
      · simp only [utf8Bytes, if_neg h1, if_neg h2, if_pos h3] at h ⊢
        simp at h
        have hm2 : m = 1 ∨ m = 2 := by omega
        have hcont : ∀ b ∈ [0x80 + c.toNat / 0x40 % 0x40, 0x80 + c.toNat % 0x40],
            0x80 ≤ b ∧ b < 0xC2 := by
          intro b hb; simp at hb; rcases hb with hb | hb <;> omega
        rcases hm2 with hm2 | hm2 <;> subst hm2
        · simp only [List.take]
          rw [decodeUtf8Ignore_cons, utf8DecodeStep.eq_def]
          rw [if_neg (by omega), if_neg (by omega), if_neg (by omega), if_pos (by omega)]
          simpa using decodeUtf8Ignore_nil
        · simp only [List.take]
          rw [decodeUtf8Ignore_cons, utf8DecodeStep.eq_def]
          rw [if_neg (by omega), if_neg (by omega), if_neg (by omega), if_pos (by omega)]
          simp only []
          exact decodeUtf8Ignore_conts _ (by intro b hb; simp at hb; omega)
      · simp only [utf8Bytes, if_neg h1, if_neg h2, if_neg h3] at h ⊢
        simp at h
        have hm3 : m = 1 ∨ m = 2 ∨ m = 3 := by omega
        rcases hm3 with hm3 | hm3 | hm3 <;> subst hm3 <;> simp only [List.take] <;>
          rw [decodeUtf8Ignore_cons, utf8DecodeStep.eq_def] <;>
          rw [if_neg (by omega), if_neg (by omega), if_neg (by omega), if_neg (by omega),
            if_pos (by omega)]
        · simpa using decodeUtf8Ignore_nil
        · exact decodeUtf8Ignore_conts _ (by intro b hb; simp at hb; omega)
        · exact decodeUtf8Ignore_conts _ (by intro b hb; simp at hb; omega)

/-- What encode-take-decode-ignore computes: the longest whole-character
prefix that fits in `n` bytes. -/
theorem decode_take_encode (s : List Char) (n : Nat) :
    decodeUtf8Ignore ((encodeUtf8 s).take n) = utf8Trunc n s := by
  induction s generalizing n with
  | nil => simpa [encodeUtf8_nil, utf8Trunc] using decodeUtf8Ignore_nil
  | cons c cs ih =>
    rw [encodeUtf8_cons, List.take_append_eq_append_take]
    by_cases hk : (utf8Bytes c).length ≤ n
    · rw [List.take_of_length_le hk, decodeUtf8Ignore_utf8Bytes_append, ih,
        utf8Trunc, if_pos hk]
    · have hz : n - (utf8Bytes c).length = 0 := by omega
      rw [hz]
      simp only [List.take_zero, List.append_nil]
      rw [decodeUtf8Ignore_take_utf8Bytes c n (by omega), utf8Trunc, if_neg hk]

/-! ## Helper lemmas: truncation, collapse, strip -/

theorem utf8Trunc_append (n : Nat) (s : List Char) :
    ∃ u, utf8Trunc n s ++ u = s := by
  induction s generalizing n with
  | nil => exact ⟨[], rfl⟩
  | cons c cs ih =>
    rw [utf8Trunc]
    by_cases hk : (utf8Bytes c).length ≤ n
    · rw [if_pos hk]
      obtain ⟨u, hu⟩ := ih (n - (utf8Bytes c).length)
      exact ⟨u, by simp [hu]⟩
    · exact ⟨c :: cs, by simp [if_neg hk]⟩

theorem mem_utf8Trunc {c : Char} {n : Nat} {s : List Char}
    (h : c ∈ utf8Trunc n s) : c ∈ s := by
  obtain ⟨u, hu⟩ := utf8Trunc_append n s
  rw [← hu]
  exact List.mem_append_left _ h

theorem utf8Len_utf8Trunc_le (n : Nat) (s : List Char) :
    utf8Len (utf8Trunc n s) ≤ n := by
  induction s generalizing n with
  | nil => simp [utf8Trunc, utf8Len, encodeUtf8_nil]
  | cons c cs ih =>
    rw [utf8Trunc]
    by_cases hk : (utf8Bytes c).length ≤ n
    · rw [if_pos hk, utf8Len_cons]
      have := ih (n - (utf8Bytes c).length)
      omega
    · simp [if_neg hk, utf8Len, encodeUtf8_nil]

theorem utf8Trunc_of_len_le {n : Nat} {s : List Char} (h : utf8Len s ≤ n) :
    utf8Trunc n s = s := by
  induction s generalizing n with
  | nil => rfl
  | cons c cs ih =>
    rw [utf8Len_cons] at h
    rw [utf8Trunc, if_pos (by omega), ih (by omega)]

theorem utf8Len_mono {s t : List Char} (h : s.Sublist t) : utf8Len s ≤ utf8Len t := by
  induction h with
  | slnil => exact Nat.le_refl _
  | cons c _ ih => rw [utf8Len_cons]; omega
  | cons₂ c _ ih => rw [utf8Len_cons, utf8Len_cons]; omega

theorem utf8Len_reverse (s : List Char) : utf8Len s.reverse = utf8Len s := by
  induction s with
  | nil => rfl
  | cons c cs ih =>
    rw [List.reverse_cons, utf8Len_cons, ← ih, utf8Len, utf8Len, encodeUtf8]
    simp [encodeUtf8]
    omega

theorem rstripChar_sublist (x : Char) (s : List Char) : (rstripChar x s).Sublist s := by
  have h1 : (s.reverse.dropWhile (fun c => c == x)).Sublist s.reverse :=
    List.dropWhile_sublist _
  simpa [rstripChar] using h1.reverse

theorem mem_rstripChar {x c : Char} {s : List Char} (h : c ∈ rstripChar x s) : c ∈ s :=
  (rstripChar_sublist x s).mem h

theorem utf8Len_rstripChar_le (x : Char) (s : List Char) :
    utf8Len (rstripChar x s) ≤ utf8Len s :=
  utf8Len_mono (rstripChar_sublist x s)

theorem rstripChar_eq_rdropWhile (x : Char) (s : List Char) :
    rstripChar x s = List.rdropWhile (fun c => c == x) s := rfl

theorem rstripChar_idem (x : Char) (s : List Char) :
    rstripChar x (rstripChar x s) = rstripChar x s := by
  rw [rstripChar_eq_rdropWhile, rstripChar_eq_rdropWhile]
  exact List.rdropWhile_idempotent _ _

theorem stripChar_sublist (x : Char) (s : List Char) : (stripChar x s).Sublist s := by
  have h1 : (s.dropWhile (fun c => c == x)).Sublist s := List.dropWhile_sublist _
  have h2 : ((s.dropWhile (fun c => c == x)).reverse.dropWhile
      (fun c => c == x)).Sublist (s.dropWhile (fun c => c == x)).reverse :=
    List.dropWhile_sublist _
  have h3 := h2.reverse
  simp only [List.reverse_reverse] at h3
  exact h3.trans h1

theorem mem_stripChar {x c : Char} {s : List Char} (h : c ∈ stripChar x s) : c ∈ s :=
  (stripChar_sublist x s).mem h

theorem dropWhile_eq_self_of_not_mem {p : Char → Bool} {s : List Char}
    (h : ∀ c ∈ s, p c = false) : s.dropWhile p = s := by
  cases s with
  | nil => rfl
  | cons c cs => rw [List.dropWhile_cons_of_neg (by simp [h c (by simp)])]

theorem stripChar_of_not_mem {x : Char} {s : List Char} (h : x ∉ s) :
    stripChar x s = s := by
  have hp : ∀ c ∈ s, (c == x) = false := by
    intro c hc
    simp only [beq_eq_false_iff_ne, ne_eq]
    rintro rfl; exact h hc
  rw [stripChar, dropWhile_eq_self_of_not_mem hp,
    dropWhile_eq_self_of_not_mem (by intro c hc; exact hp c (List.mem_reverse.mp hc)),
    List.reverse_reverse]

theorem rstripChar_of_not_mem {x : Char} {s : List Char} (h : x ∉ s) :
    rstripChar x s = s := by
  have hp : ∀ c ∈ s, (c == x) = false := by
    intro c hc
    simp only [beq_eq_false_iff_ne, ne_eq]
    rintro rfl; exact h hc
  rw [rstripChar,
    dropWhile_eq_self_of_not_mem (by intro c hc; exact hp c (List.mem_reverse.mp hc)),
    List.reverse_reverse]

theorem mem_collapseAux {c : Char} : ∀ {b : Bool} {s : List Char},
    c ∈ collapseAux b s → c = '_' ∨ (c ∈ s ∧ isPySpace c = false) := by
  intro b s
  induction s generalizing b with
  | nil => simp [collapseAux]
  | cons d cs ih =>
    rw [collapseAux]
    by_cases hd : isPySpace d
    · rw [if_pos hd]
      intro hc
      rcases List.mem_append.mp hc with hc | hc
      · left
        cases b <;> simp_all
      · rcases ih hc with h | ⟨h1, h2⟩
        · exact Or.inl h
        · exact Or.inr ⟨by simp [h1], h2⟩
    · rw [if_neg hd]
      intro hc
      rcases List.mem_cons.mp hc with rfl | hc
      · exact Or.inr ⟨by simp, by simpa using hd⟩
      · rcases ih hc with h | ⟨h1, h2⟩
        · exact Or.inl h
        · exact Or.inr ⟨by simp [h1], h2⟩

theorem collapseAux_of_no_space {s : List Char} (h : ∀ c ∈ s, isPySpace c = false) :
    ∀ b, collapseAux b s = s := by
  induction s with
  | nil => intro b; rfl
  | cons d cs ih =>
    intro b
    rw [collapseAux, if_neg (by simp [h d (by simp)])]
    rw [ih (fun c hc => h c (by simp [hc]))]

theorem keepChar_underscore (alnum : Char → Bool) : keepChar alnum '_' = true := by
  simp [keepChar]

theorem mem_dropWhile_of_ne {x c : Char} {l : List Char} (hc : c ∈ l) (hne : c ≠ x) :
    c ∈ l.dropWhile (fun d => d == x) := by
  induction l with
  | nil => exact absurd hc (List.not_mem_nil c)
  | cons d ds ih =>
    rw [List.dropWhile_cons]
    by_cases hd : (d == x) = true
    · rw [if_pos hd]
      rcases List.mem_cons.mp hc with rfl | hc2
      · exact absurd (beq_iff_eq.mp hd) hne
      · exact ih hc2
    · rw [if_neg hd]
      exact hc

theorem mem_stripChar_of_ne {x c : Char} {s : List Char} (hc : c ∈ s) (hne : c ≠ x) :
    c ∈ stripChar x s := by
  rw [stripChar, List.mem_reverse]
  apply mem_dropWhile_of_ne _ hne
  rw [List.mem_reverse]
  exact mem_dropWhile_of_ne hc hne

theorem utf8Bytes_length_le_four (c : Char) : (utf8Bytes c).length ≤ 4 := by
  simp only [utf8Bytes]
  split_ifs <;> simp

theorem mem_collapseAux_of_mem {c : Char} (hns : isPySpace c = false) :
    ∀ {s : List Char} (b : Bool), c ∈ s → c ∈ collapseAux b s := by
  intro s
  induction s with
  | nil => intro b hc; exact absurd hc (List.not_mem_nil c)
  | cons d ds ih =>
    intro b hc
    rw [collapseAux]
    by_cases hd : isPySpace d
    · rw [if_pos hd]
      have hcds : c ∈ ds := by
        rcases List.mem_cons.mp hc with rfl | h
        · exact absurd hd (by simp [hns])
        · exact h
      exact List.mem_append.mpr (Or.inr (ih true hcds))
    · rw [if_neg hd]
      rcases List.mem_cons.mp hc with rfl | h
      · exact List.mem_cons_self _ _
      · exact List.mem_cons.mpr (Or.inr (ih false h))

/-- Claim C3: the name sanitizer is idempotent at the default byte cap:
for every title, sanitizing twice equals sanitizing once.  The external
`unicodedata.normalize` calls, the Unicode alnum table, and the class
`inert` of normalization-inert characters are parameters.  In the intended
reading `inert c` says `c` has combining class 0 and no canonical or
compatibility decomposition; with that reading every hypothesis is a fact
of real Unicode normalization: `hkc` — NFKD is invariant under a preceding
NFC (canonical equivalence); `hfix` — a string of inert characters is
already NFKD-normal (nothing decomposes and there are no non-starters to
reorder), hence fixed; `hout` — a character that NFKD emitted *and* that
the `[\w\s-]` filter keeps as a non-space (so an alphanumeric, `_` or
`-`) is inert, since it survived NFKD undecomposed and alphanumerics,
underscore and hyphen all have combining class 0 (combining marks are not
alphanumeric, so nothing is claimed about them); `hund` — `_` is inert;
`hdot` — `.` is not alphanumeric. -/
theorem c3_sanitize_idempotent
    (alnum : Char → Bool) (nfkd nfc : List Char → List Char) (inert : Char → Bool)
    (hkc : ∀ s, nfkd (nfc s) = nfkd s)
    (hfix : ∀ s, (∀ c ∈ s, inert c = true) → nfkd s = s)
    (hout : ∀ t c, c ∈ nfkd t → keepChar alnum c = true → isPySpace c = false →
        inert c = true)
    (hund : inert '_' = true)
    (hdot : alnum '.' = false)
    (t : List Char) :
    sanitize_filename alnum nfkd nfc (sanitize_filename alnum nfkd nfc t 255) 255
      = sanitize_filename alnum nfkd nfc t 255 := by
  have hdte := decode_take_encode
  -- name the stages of the first pass
  set s2 := (nfkd t).filter (keepChar alnum) with hs2
  set s3 := stripChar '.' (collapseSpaces s2) with hs3
  have hpre : sanitizePre alnum nfkd t = s3 := rfl
  set s4 := utf8Trunc 255 s3 with hs4
  set s5 := rstripChar '_' s4 with hs5
  have hfirst : sanitize_filename alnum nfkd nfc t 255 = nfc s5 := by
    rw [sanitize_filename, hpre, hdte, ← hs4, ← hs5]
  -- membership chain
  have hmem : ∀ c ∈ s5, c = '_' ∨ (c ∈ s2 ∧ isPySpace c = false) := by
    intro c hc
    exact mem_collapseAux (mem_stripChar (mem_utf8Trunc (mem_rstripChar hc)))
  have hs5keep : ∀ c ∈ s5, keepChar alnum c = true := by
    intro c hc
    rcases hmem c hc with rfl | ⟨h1, _⟩
    · exact keepChar_underscore alnum
    · exact (List.mem_filter.mp h1).2
  have hs5nospace : ∀ c ∈ s5, isPySpace c = false := by
    intro c hc
    rcases hmem c hc with rfl | ⟨_, h2⟩
    · decide
    · exact h2
  have hs5nodot : '.' ∉ s5 := by
    intro hc
    rcases hmem '.' hc with h | ⟨h1, _⟩
    · exact absurd h (by decide)
    · have := (List.mem_filter.mp h1).2
      simp [keepChar, hdot] at this
      exact absurd this (by decide)
  have hs5inert : ∀ c ∈ s5, inert c = true := by
    intro c hc
    rcases hmem c hc with rfl | ⟨h1, h2⟩
    · exact hund
    · exact hout t c (List.mem_filter.mp h1).1 (List.mem_filter.mp h1).2 h2
  have hs5len : utf8Len s5 ≤ 255 :=
    Nat.le_trans (utf8Len_rstripChar_le _ _) (utf8Len_utf8Trunc_le _ _)
  -- second pass
  rw [hfirst, sanitize_filename, sanitizePre]
  rw [hkc, hfix s5 hs5inert]
  rw [List.filter_eq_self.mpr hs5keep]
  rw [show collapseSpaces s5 = s5 from collapseAux_of_no_space hs5nospace false]
  rw [stripChar_of_not_mem hs5nodot]
  rw [hdte, utf8Trunc_of_len_le hs5len]
  rw [hs5, rstripChar_idem]

theorem isAsciiAlnum_not_space {c : Char} (h : isAsciiAlnum c = true) :
    isPySpace c = false := by
  simp only [isAsciiAlnum, decide_eq_true_eq] at h
  simp only [isPySpace, decide_eq_false_iff_not]
  omega

theorem utf8Bytes_ascii {c : Char} (h : c.toNat < 0x80) : utf8Bytes c = [c.toNat] := by
  simp [utf8Bytes, if_pos h]

/-- Claim C4, amended: the claim fails for general printable titles (see
the counterexample `"."`), and even the alternative spec wording
("never empty for non-empty alphanumeric input") is too strong in full
Unicode — the alphanumeric title U+037A NFKD-normalizes to space plus a
combining mark and sanitizes to the empty string (see
`sanitize_alnum_title_can_be_empty` below).  What the code guarantees is:
for every non-empty alphanumeric title whose NFKD normalization still
contains an alphanumeric character and contains neither an underscore nor
whitespace, the sanitized name is non-empty.  The three NFKD conditions
are stated per-title because that is exactly where they hold: they are
true of every ASCII-alphanumeric title (NFKD is the identity there) and of
typical accented titles (NFKD of `é` is `e` plus a combining mark), and
they fail precisely on the exotic alphanumerics that really do sanitize to
the empty string. -/
theorem c4_nonempty_for_alnum_titles
    (alnum : Char → Bool) (nfkd nfc : List Char → List Char) (t : List Char)
    (hne : t ≠ [])
    (hch : ∀ c ∈ t, alnum c = true)
    (hkd1 : ∃ c ∈ nfkd t, alnum c = true)
    (hkd2 : '_' ∉ nfkd t)
    (hkd3 : ∀ c ∈ nfkd t, isPySpace c = false)
    (hdot : alnum '.' = false)
    (hnfc : ∀ s, s ≠ [] → nfc s ≠ []) :
    sanitize_filename alnum nfkd nfc t 255 ≠ [] := by
  obtain ⟨c0, hc0mem, hc0al⟩ := hkd1
  set s2 := (nfkd t).filter (keepChar alnum) with hs2
  have hc0s2 : c0 ∈ s2 := List.mem_filter.mpr ⟨hc0mem, by simp [keepChar, hc0al]⟩
  have hs2nospace : ∀ c ∈ s2, isPySpace c = false := fun c hc =>
    hkd3 c (List.mem_filter.mp hc).1
  have hcoll : collapseSpaces s2 = s2 := collapseAux_of_no_space hs2nospace false
  have hc0ne : c0 ≠ '.' := by
    rintro rfl
    rw [hdot] at hc0al
    simp at hc0al
  have hc0s3 : c0 ∈ stripChar '.' (collapseSpaces s2) := by
    rw [hcoll]
    exact mem_stripChar_of_ne hc0s2 hc0ne
  have hs3ne : stripChar '.' (collapseSpaces s2) ≠ [] := List.ne_nil_of_mem hc0s3
  have hpre : sanitizePre alnum nfkd t = stripChar '.' (collapseSpaces s2) := rfl
  rw [sanitize_filename, hpre, decode_take_encode]
  cases hs3 : stripChar '.' (collapseSpaces s2) with
  | nil => exact absurd hs3 hs3ne
  | cons d ds =>
    rw [utf8Trunc, if_pos (Nat.le_trans (utf8Bytes_length_le_four d) (by omega))]
    apply hnfc
    rw [rstripChar_of_not_mem]
    · simp
    · intro hmem2
      have hin3 : '_' ∈ stripChar '.' (collapseSpaces s2) := by
        rw [hs3]
        rcases List.mem_cons.mp hmem2 with h | h
        · rw [h]; exact List.mem_cons_self d ds
        · exact List.mem_cons.mpr (Or.inr (mem_utf8Trunc h))
      have hin2 : '_' ∈ s2 := by
        rw [hcoll] at hin3
        exact mem_stripChar hin3
      exact hkd2 (List.mem_filter.mp hin2).1

/-- The boundary of claim C4: the title consisting of the single
alphanumeric printable character U+037A GREEK YPOGEGRAMMENI sanitizes to
the empty string under the real collaborator behavior (its NFKD is
space + U+0345; the combining mark is dropped by the filter, the space
becomes `_`, and the trailing `_` is stripped). -/
theorem sanitize_alnum_title_can_be_empty :
    alnumYpogegrammeni (Char.ofNat 0x37A) = true ∧
    [Char.ofNat 0x37A] ≠ [] ∧
    sanitize_filename alnumYpogegrammeni nfkdYpogegrammeni id
      [Char.ofNat 0x37A] 255 = [] := by
  refine ⟨by decide, by decide, ?_⟩
  rw [sanitize_filename, decode_take_encode]
  decide

/-- Claim C5: for every title and every byte cap `n`, the sanitized name
encodes to at most `n` UTF-8 bytes, contains no path separator (`/` or
`\`), and the truncation step discards only a whole-character suffix (its
result is a character prefix of the pre-truncation string — no multi-byte
code point is split).  As in the idempotence theorem, `inert` is the class
of normalization-inert characters (combining class 0, no decomposition),
and the hypotheses are facts of the real collaborators: `hlen` — NFC never
lengthens the UTF-8 encoding of a string of inert characters (such a
string is already canonically decomposed, so NFC only composes pairs, and
no primary composite is longer in UTF-8 than its parts — the
composition-exclusion growth cases like U+0958 cannot occur because
excluded composites never survive NFKD); `hout` — NFKD-output characters
kept by the filter as non-spaces are inert; `hund` — `_` is inert;
`hsep` — NFC introduces no path separator (no composition or canonical
decomposition produces `/` or `\`); `/` and `\` are not alphanumeric. -/
theorem c5_byte_cap_no_split_no_separator
    (alnum : Char → Bool) (nfkd nfc : List Char → List Char) (inert : Char → Bool)
    (hlen : ∀ s, (∀ c ∈ s, inert c = true) → utf8Len (nfc s) ≤ utf8Len s)
    (hout : ∀ t c, c ∈ nfkd t → keepChar alnum c = true → isPySpace c = false →
        inert c = true)
    (hund : inert '_' = true)
    (hsep : ∀ s, ('/' ∉ s ∧ '\\' ∉ s) → '/' ∉ nfc s ∧ '\\' ∉ nfc s)
    (hsl : alnum '/' = false) (hbsl : alnum '\\' = false)
    (t : List Char) (n : Nat) :
    utf8Len (sanitize_filename alnum nfkd nfc t n) ≤ n ∧
    ('/' ∉ sanitize_filename alnum nfkd nfc t n ∧
      '\\' ∉ sanitize_filename alnum nfkd nfc t n) ∧
    ∃ u, decodeUtf8Ignore ((encodeUtf8 (sanitizePre alnum nfkd t)).take n) ++ u
        = sanitizePre alnum nfkd t := by
  have hrw : sanitize_filename alnum nfkd nfc t n
      = nfc (rstripChar '_' (utf8Trunc n (sanitizePre alnum nfkd t))) := by
    rw [sanitize_filename, decode_take_encode]
  have hmem : ∀ c ∈ rstripChar '_' (utf8Trunc n (sanitizePre alnum nfkd t)),
      c = '_' ∨ (c ∈ nfkd t ∧ keepChar alnum c = true ∧ isPySpace c = false) := by
    intro c hc
    have h3 := mem_stripChar (mem_utf8Trunc (mem_rstripChar hc))
    rcases mem_collapseAux h3 with h | ⟨h1, h2⟩
    · exact Or.inl h
    · exact Or.inr ⟨(List.mem_filter.mp h1).1, (List.mem_filter.mp h1).2, h2⟩
  refine ⟨?_, ?_, ?_⟩
  · rw [hrw]
    refine Nat.le_trans (hlen _ ?_)
      (Nat.le_trans (utf8Len_rstripChar_le _ _) (utf8Len_utf8Trunc_le _ _))
    intro c hc
    rcases hmem c hc with rfl | ⟨h1, h2, h3⟩
    · exact hund
    · exact hout t c h1 h2 h3
  · rw [hrw]
    apply hsep
    constructor
    · intro hc
      rcases hmem _ hc with h | ⟨_, h1, _⟩
      · exact absurd h (by decide)
      · simp [keepChar, hsl] at h1
        exact absurd h1 (by decide)
    · intro hc
      rcases hmem _ hc with h | ⟨_, h1, _⟩
      · exact absurd h (by decide)
      · simp [keepChar, hbsl] at h1
        exact absurd h1 (by decide)
  · rw [decode_take_encode]
    exact utf8Trunc_append n _

/-- Claim C6: sanitizing the exact title `"My: Video? <Test>"` at the
default cap yields exactly `"My_Video_Test"`.  On this all-ASCII input the
`unicodedata.normalize` calls are the identity and the Python alnum table
restricted to ASCII is `isAsciiAlnum`, so the instantiation is exact. -/
theorem c6_scenario_my_video_test :
    sanitize_filename isAsciiAlnum id id ("My: Video? <Test>".toList) 255
      = "My_Video_Test".toList := by
  rw [sanitize_filename, decode_take_encode]
  decide

/-- Claim C8, amended: the YouTube-family sanitizers compute the same
function (their bodies are textually identical; shown here for the
`you2wav.py` and `youtube_downloader.py` transcriptions, and
`audio_converter.py`/`you2text.py` carry the same body), but the `tok2wav`
variant computes a different function — see the counterexample. -/
theorem c8_youtube_variants_agree
    (alnum : Char → Bool) (nfkd nfc : List Char → List Char)
    (t : List Char) (n : Nat) :
    sanitize_filename_you2wav alnum nfkd nfc t n
      = sanitize_filename alnum nfkd nfc t n := rfl

/-- Claim C8 counterexample: on the all-ASCII title `"a.b"` (where both
external normalizations are the identity) the YouTube-family sanitizer
removes the dot while the tok2wav sanitizer keeps it, so the variants do
not compute the same function. -/
theorem c8_tok2wav_differs_on_dot :
    sanitize_filename isAsciiAlnum id id ("a.b".toList) 255
      ≠ sanitize_filename_tok id ("a.b".toList) 255 := by
  have h1 : sanitize_filename isAsciiAlnum id id ("a.b".toList) 255 = "ab".toList := by
    rw [sanitize_filename, decode_take_encode]
    decide
  have h2 : sanitize_filename_tok id ("a.b".toList) 255 = "a.b".toList := by decide
  rw [h1, h2]
  decide

/-- Claim C4 counterexample: the title `"."` is non-empty and printable
(every character is in the printable ASCII range), yet it sanitizes to the
empty string — the dot matches none of `\w`, `\s`, `-` and is removed. -/
theorem c4_dot_title_sanitizes_to_empty :
    (['.'] : List Char) ≠ [] ∧
    (∀ c ∈ (['.'] : List Char), 0x20 ≤ c.toNat ∧ c.toNat < 0x7F) ∧
    sanitize_filename isAsciiAlnum id id ['.'] 255 = [] := by
  refine ⟨by decide, by decide, ?_⟩
  rw [sanitize_filename, decode_take_encode]
  decide

/-! ## C7 helpers -/

theorem toNat_asciiLower_upper {c : Char} (h : 0x41 ≤ c.toNat ∧ c.toNat ≤ 0x5A) :
    (asciiLower c).toNat = c.toNat + 0x20 := by
  rw [asciiLower, if_pos h, toNat_ofNat_valid _ (Or.inl (by omega))]

theorem asciiLower_eq_self {c : Char} (h : ¬(0x41 ≤ c.toNat ∧ c.toNat ≤ 0x5A)) :
    asciiLower c = c := by
  rw [asciiLower, if_neg h]

theorem asciiLower_idem (c : Char) : asciiLower (asciiLower c) = asciiLower c := by
  by_cases h : 0x41 ≤ c.toNat ∧ c.toNat ≤ 0x5A
  · exact asciiLower_eq_self (by rw [toNat_asciiLower_upper h]; omega)
  · rw [asciiLower_eq_self h]
    exact asciiLower_eq_self h

theorem isPySpace_asciiLower (c : Char) : isPySpace (asciiLower c) = isPySpace c := by
  by_cases h : 0x41 ≤ c.toNat ∧ c.toNat ≤ 0x5A
  · have h2 := toNat_asciiLower_upper h
    simp only [isPySpace]
    rw [h2]
    simp only [decide_eq_decide]
    omega
  · rw [asciiLower_eq_self h]

theorem map_asciiLower_idem (s : List Char) :
    (s.map asciiLower).map asciiLower = s.map asciiLower := by
  rw [List.map_map]
  exact List.map_congr_left (fun a _ => asciiLower_idem a)

theorem pyStrip_map_asciiLower (s : List Char) :
    pyStrip (s.map asciiLower) = (pyStrip s).map asciiLower := by
  have hc : (isPySpace ∘ asciiLower) = isPySpace := funext isPySpace_asciiLower
  simp only [pyStrip]
  rw [List.dropWhile_map, hc, ← List.map_reverse, List.dropWhile_map, hc,
    ← List.map_reverse]

theorem youtubeUrlMatch_map_asciiLower (s : List Char) :
    youtubeUrlMatch (s.map asciiLower) = youtubeUrlMatch s := by
  simp only [youtubeUrlMatch, map_asciiLower_idem]

theorem is_valid_youtube_url_map_asciiLower (s : List Char) :
    is_valid_youtube_url (s.map asciiLower) = is_valid_youtube_url s := by
  rw [is_valid_youtube_url, pyStrip_map_asciiLower, youtubeUrlMatch_map_asciiLower,
    is_valid_youtube_url]

/-- Claim C7, amended: both validators are total pure Boolean predicates;
each rejects the empty string, accepts its canonical example URL, and the
YouTube validator matches case-insensitively (lowercasing the input never
changes its verdict).  The TikTok validator, contrary to the claim, is
case-sensitive — see the counterexample. -/
theorem c7_validators_properties :
    is_valid_youtube_url [] = false ∧ is_valid_tiktok_url [] = false ∧
    is_valid_youtube_url ("https://www.youtube.com/watch?v=dQw4w9WgXcQ".toList) = true ∧
    is_valid_tiktok_url ("https://www.tiktok.com/@user/video/1234567890".toList) = true ∧
    ∀ s : List Char,
      is_valid_youtube_url (s.map asciiLower) = is_valid_youtube_url s := by
  refine ⟨by decide, by decide, by decide, by decide, is_valid_youtube_url_map_asciiLower⟩

/-- Claim C7 counterexample: `is_valid_tiktok_url` accepts the lowercase
canonical URL but rejects the same URL with an upper-case scheme, although
the two differ only by ASCII case in the scheme — the TikTok pattern is
compiled without `re.IGNORECASE`, so scheme and host matching is
case-sensitive. -/
theorem c7_tiktok_uppercase_scheme_rejected :
    is_valid_tiktok_url ("https://www.tiktok.com/@user/video/123".toList) = true ∧
    is_valid_tiktok_url ("HTTPS://www.tiktok.com/@user/video/123".toList) = false ∧
    ("HTTPS://www.tiktok.com/@user/video/123".toList).map asciiLower
      = "https://www.tiktok.com/@user/video/123".toList := by
  refine ⟨by decide, by decide, by decide⟩

/-! ## C9 / C10 -/

theorem takeWhile_append_cons {p : Char → Bool} {l : List Char} {x : Char}
    {r : List Char} (hl : ∀ c ∈ l, p c = true) (hx : p x = false) :
    (l ++ x :: r).takeWhile p = l := by
  induction l with
  | nil => simp [List.takeWhile_cons, hx]
  | cons c cs ih =>
    rw [List.cons_append, List.takeWhile_cons_of_pos (hl c (by simp)),
      ih (fun d hd => hl d (by simp [hd]))]

/-- Claim C9: the block `extract_text` appends for an item is exactly a
header line `--- <item-name> ---`, then the payload, then a blank separator
line; and (for names without a newline) the name and payload can be parsed
back out of the block unambiguously. -/
theorem c9_block_exact_format (name text : List Char) (h : '\n' ∉ name) :
    blockFor name text
      = ("--- ".toList ++ name ++ " ---".toList) ++ '\n' :: (text ++ ['\n', '\n'])
    ∧ parseBlock (blockFor name text) = some (name, text) := by
  have hsplit : blockFor name text
      = ("--- ".toList ++ name ++ " ---".toList) ++ '\n' :: (text ++ ['\n', '\n']) := by
    simp [blockFor]
  refine ⟨hsplit, ?_⟩
  set H := "--- ".toList ++ name ++ " ---".toList with hH
  have hHlen : H.length = name.length + 8 := by
    simp [hH, List.length_append]
  have hHnoNl : ∀ c ∈ H, (c != '\n') = true := by
    intro c hc
    simp only [hH, List.append_assoc, List.mem_append] at hc
    rcases hc with hc | hc | hc
    · fin_cases hc <;> decide
    · simp only [bne_iff_ne, ne_eq]
      rintro rfl
      exact h hc
    · fin_cases hc <;> decide
  have htake : (blockFor name text).takeWhile (fun c => c != '\n') = H := by
    rw [hsplit]
    exact takeWhile_append_cons hHnoNl (by decide)
  have hdrop : (blockFor name text).drop (name.length + 8 + 1) = text ++ ['\n', '\n'] := by
    rw [hsplit]
    have heq : H ++ '\n' :: (text ++ ['\n', '\n'])
        = (H ++ ['\n']) ++ (text ++ ['\n', '\n']) := by simp
    rw [heq, show name.length + 8 + 1 = (H ++ ['\n']).length by simp [hHlen],
      List.drop_left]
  rw [parseBlock]
  simp only [htake, hHlen, hdrop]
  rw [if_pos ?hcond]
  case hcond =>
    refine ⟨?_, ?_, by omega, ?_⟩
    · exact List.isPrefixOf_iff_prefix.mpr (by rw [hH, List.append_assoc]; exact List.prefix_append _ _)
    · exact List.isSuffixOf_iff_suffix.mpr (by rw [hH]; exact List.suffix_append _ _)
    · refine List.isSuffixOf_iff_suffix.mpr ?_
      rw [show ("\n\n".toList : List Char) = ['\n', '\n'] from by decide]
      exact List.suffix_append _ _
  congr 1
  have h1 : H.drop 4 = name ++ " ---".toList := by
    rw [hH, show (4 : Nat) = ("--- ".toList).length by decide, List.append_assoc,
      List.drop_left]
  have h2 : (H.drop 4).take (name.length + 8 - 8) = name := by
    rw [h1, show name.length + 8 - 8 = name.length from by omega, List.take_left]
  have h3 : (text ++ ['\n', '\n']).take ((text ++ ['\n', '\n']).length - 2) = text := by
    have : (text ++ ['\n', '\n']).length - 2 = text.length := by simp
    rw [this, List.take_left]
  rw [h2, h3]

theorem foldl_extract_text (items : List (List Char × Option (List Char)))
    (acc : List Char) :
    items.foldl (fun content it => extract_text content it.1 it.2) acc
      = acc ++ (items.filterMap (fun it => it.2.map (blockFor it.1))).flatten := by
  induction items generalizing acc with
  | nil => simp
  | cons it rest ih =>
    rcases it with ⟨name, ocr⟩
    rw [List.foldl_cons, ih]
    cases ocr with
    | some text => simp [extract_text, List.filterMap_cons]
    | none => simp [extract_text, List.filterMap_cons]

/-- Claim C10: `extract_text_from_images` truncates the shared output file
before any worker writes, so the final content is exactly the
concatenation of the blocks of the current run (in completion order, failed
items contributing nothing) and is independent of whatever the file held
before the run. -/
theorem c10_output_cleared_before_run (previous : List Char)
    (items : List (List Char × Option (List Char))) :
    extract_text_from_images previous items
      = (items.filterMap (fun it => it.2.map (blockFor it.1))).flatten
    ∧ extract_text_from_images previous items = extract_text_from_images [] items := by
  constructor
  · rw [extract_text_from_images, foldl_extract_text]
    simp
  · rfl

/-! ## C1 -/

theorem mapM_except_ok {α β ε : Type} (f : α → Except ε β) (l : List α)
    (h : ∀ a ∈ l, ∀ e, f a ≠ Except.error e) :
    ∃ res : List β, l.mapM f = Except.ok res ∧ res.length = l.length ∧
      ∀ p : β → Bool, res.countP p = l.countP
        (fun a => match f a with | Except.ok r => p r | Except.error _ => false) := by
  induction l with
  | nil => exact ⟨[], rfl, rfl, fun p => rfl⟩
  | cons a l ih =>
    obtain ⟨res, hres, hlen, hcount⟩ := ih (fun x hx e => h x (by simp [hx]) e)
    cases hfa : f a with
    | error e => exact absurd hfa (h a (by simp) e)
    | ok b =>
      refine ⟨b :: res, ?_, by simp [hlen], ?_⟩
      · rw [List.mapM_cons, hfa, hres]
        rfl
      · intro p
        rw [List.countP_cons, List.countP_cons, hcount p, hfa]

theorem download_video_and_audio_no_raise
    (cap : List Char → Except PyExc (Bool × List Char)) (u : List Char) (e : PyExc) :
    download_video_and_audio cap u ≠ Except.error e := by
  rw [download_video_and_audio]
  by_cases hv : is_valid_youtube_url u
  · rw [if_pos hv]
    cases hc : cap u with
    | ok r => exact fun hh => Except.noConfusion hh
    | error ex =>
      by_cases hd : ex.isDownloadError
      · simp only [hd, if_pos]
        exact fun hh => Except.noConfusion hh
      · simp only [hd, if_neg]
        exact fun hh => Except.noConfusion hh
  · rw [if_neg hv]
    exact fun hh => Except.noConfusion hh

theorem audio_worker_no_raise
    (cap : List Char → Except PyExc (Bool × List Char))
    (hdl : ∀ u e, cap u = Except.error e → e.isDownloadError = true)
    (u : List Char) (e : PyExc) :
    audio_download_and_process_video cap u ≠ Except.error e := by
  rw [audio_download_and_process_video]
  by_cases hv : youtubeUrlMatch u
  · rw [if_pos hv]
    cases hc : cap u with
    | ok r => exact fun hh => Except.noConfusion hh
    | error ex =>
      have hdd := hdl u ex hc
      simp [hdd]
  · rw [if_neg hv]
    exact fun hh => Except.noConfusion hh

/-- Claim C1, amended: for the thread-pool variant
(`youtube_downloader.download_videos_from_file`) the claim holds
unconditionally: one result per accepted item in any completion order,
failure count equal to the number of items whose worker fails, the rest
successes, and no exception ever escapes a worker.  For the sequential
`audio_converter` variant it holds provided every capability failure is a
`yt_dlp.utils.DownloadError` (the only exception its worker catches); the
counterexample shows any other exception aborts that batch. -/
theorem c1_batch_fault_isolation
    (capY capA : List Char → Except PyExc (Bool × List Char))
    (lines order : List (List Char))
    (hperm : order.Perm (acceptedUrls lines))
    (hdl : ∀ u e, capA u = Except.error e → e.isDownloadError = true) :
    (download_videos_from_file capY order).length = (acceptedUrls lines).length
    ∧ (download_videos_from_file capY order).countP (fun r => !r.1)
        = (acceptedUrls lines).countP (fun u => !(collectFuture capY u).1)
    ∧ (download_videos_from_file capY order).countP (fun r => r.1)
        = (acceptedUrls lines).length
          - (acceptedUrls lines).countP (fun u => !(collectFuture capY u).1)
    ∧ (∀ u e, download_video_and_audio capY u ≠ Except.error e)
    ∧ ∃ res, audio_download_videos_from_file capA lines = Except.ok res
        ∧ res.length = (audioAcceptedUrls lines).length
        ∧ res.countP (fun r => !r.1)
            = (audioAcceptedUrls lines).countP (audioItemFailed capA)
        ∧ res.countP (fun r => r.1)
            = (audioAcceptedUrls lines).length - res.countP (fun r => !r.1) := by
  have hlen : (download_videos_from_file capY order).length
      = (acceptedUrls lines).length := by
    rw [download_videos_from_file, List.length_map, hperm.length_eq]
  have hfail : (download_videos_from_file capY order).countP (fun r => !r.1)
      = (acceptedUrls lines).countP (fun u => !(collectFuture capY u).1) := by
    rw [download_videos_from_file, List.countP_map]
    exact hperm.countP_eq _
  have hpart : ∀ (l : List (Bool × List Char)),
      l.countP (fun r => r.1) + l.countP (fun r => !r.1) = l.length := by
    intro l
    induction l with
    | nil => rfl
    | cons x xs ih =>
      rw [List.countP_cons, List.countP_cons, List.length_cons]
      cases hx : x.1 <;> simp [hx] <;> omega
  refine ⟨hlen, hfail, ?_, download_video_and_audio_no_raise capY, ?_⟩
  · have := hpart (download_videos_from_file capY order)
    omega
  · obtain ⟨res, hres, hrlen, hrcount⟩ :=
      mapM_except_ok (audio_download_and_process_video capA) (audioAcceptedUrls lines)
        (fun u _ e => audio_worker_no_raise capA hdl u e)
    refine ⟨res, hres, hrlen, ?_, ?_⟩
    · refine (hrcount (fun r => !r.1)).trans (List.countP_congr ?_)
      intro a _
      cases hcase : audio_download_and_process_video capA a <;>
        simp [audioItemFailed, hcase]
    · have := hpart res
      omega

/-! ## Witnesses and remaining counterexamples -/

/-- Claim C1 counterexample: with one accepted URL and a capability that
raises a non-`DownloadError` exception (a `KeyError`), the sequential
`audio_converter` batch does not produce one result per item — the
exception propagates out of `download_videos_from_file` and the batch
yields no results at all, contrary to the claim as stated. -/
theorem c1_audio_batch_exception_escapes :
    (audioAcceptedUrls cxAudioLines).length = 1 ∧
    audio_download_videos_from_file cxCapAudio cxAudioLines
      = Except.error ⟨false, "KeyError".toList⟩ := by
  constructor
  · decide
  · rfl

theorem c1_batch_fault_isolation_witness :
    (download_videos_from_file witnessCapY witnessOrder).length
        = (acceptedUrls witnessLines).length
    ∧ (download_videos_from_file witnessCapY witnessOrder).countP (fun r => !r.1)
        = (acceptedUrls witnessLines).countP
            (fun u => !(collectFuture witnessCapY u).1)
    ∧ (download_videos_from_file witnessCapY witnessOrder).countP (fun r => r.1)
        = (acceptedUrls witnessLines).length
          - (acceptedUrls witnessLines).countP
              (fun u => !(collectFuture witnessCapY u).1)
    ∧ (∀ u e, download_video_and_audio witnessCapY u ≠ Except.error e)
    ∧ ∃ res, audio_download_videos_from_file witnessCapA witnessLines = Except.ok res
        ∧ res.length = (audioAcceptedUrls witnessLines).length
        ∧ res.countP (fun r => !r.1)
            = (audioAcceptedUrls witnessLines).countP (audioItemFailed witnessCapA)
        ∧ res.countP (fun r => r.1)
            = (audioAcceptedUrls witnessLines).length
              - res.countP (fun r => !r.1) :=
  c1_batch_fault_isolation witnessCapY witnessCapA witnessLines witnessOrder
    (by decide) (fun u e h => Except.noConfusion h)

theorem c3_sanitize_idempotent_witness :
    sanitize_filename isAsciiAlnum id id
        (sanitize_filename isAsciiAlnum id id ("My Video".toList) 255) 255
      = sanitize_filename isAsciiAlnum id id ("My Video".toList) 255 :=
  c3_sanitize_idempotent isAsciiAlnum id id (fun _ => true)
    (fun _ => rfl) (fun _ _ => rfl) (fun _ _ _ _ _ => rfl) rfl (by decide)
    ("My Video".toList)

theorem c4_nonempty_for_alnum_titles_witness :
    sanitize_filename isAsciiAlnum id id ("abc123".toList) 255 ≠ [] :=
  c4_nonempty_for_alnum_titles isAsciiAlnum id id ("abc123".toList)
    (by decide) (by decide) (by decide) (by decide) (by decide) (by decide)
    (fun _ h => h)

theorem c5_byte_cap_no_split_no_separator_witness :
    utf8Len (sanitize_filename isAsciiAlnum id id ("a/b c".toList) 10) ≤ 10 ∧
    ('/' ∉ sanitize_filename isAsciiAlnum id id ("a/b c".toList) 10 ∧
      '\\' ∉ sanitize_filename isAsciiAlnum id id ("a/b c".toList) 10) ∧
    ∃ u, decodeUtf8Ignore
        ((encodeUtf8 (sanitizePre isAsciiAlnum id ("a/b c".toList))).take 10) ++ u
        = sanitizePre isAsciiAlnum id ("a/b c".toList) :=
  c5_byte_cap_no_split_no_separator isAsciiAlnum id id (fun _ => true)
    (fun _ _ => Nat.le_refl _) (fun _ _ _ _ _ => rfl) rfl (fun _ h => h)
    (by decide) (by decide) ("a/b c".toList) 10

theorem c9_block_exact_format_witness :
    blockFor ("img.png".toList) ("hello".toList)
      = ("--- ".toList ++ "img.png".toList ++ " ---".toList) ++ '\n' ::
          ("hello".toList ++ ['\n', '\n'])
    ∧ parseBlock (blockFor ("img.png".toList) ("hello".toList))
        = some ("img.png".toList, "hello".toList) :=
  c9_block_exact_format ("img.png".toList) ("hello".toList) (by decide)
